import Mathlib

set_option maxRecDepth 8000

/-!
Shallow embedding of the locale-aware alphabetic indexing core of
src/gramps/plugins/webreport/common.py and of the filter rule
src/gramps/gen/filters/rules/_hasgallerybase.py.

Strings keep the Lean `String` type (Python unicode strings); collation
sort keys (the byte strings returned by rlocale.sort_key) are modelled as
`List Nat` compared lexicographically.  External Unicode services
(unicodedata.normalize NFKC, str.upper) are parameters of the embedding,
as is the module-global COLLATE_LANG and the database accessors.
-/

/-- Lexicographic strict comparison of collation sort keys: models the
comparison of the byte strings returned by rlocale.sort_key in Python. -/
def keyLT : List Nat → List Nat → Bool
  | _, [] => false
  | [], _ :: _ => true
  | a :: as, b :: bs => decide (a < b) || (decide (a = b) && keyLT as bs)

/-- Python comparison a >= b on sort keys, as used in primary_difference. -/
def keyGE (a b : List Nat) : Bool := !keyLT a b

/-- The locale object consumed by the indexing core: a collation language
tag (the field read as glocale.collation at common.py line 254), the full
collation sort-key function rlocale.sort_key, and the translation function
rlocale.translation.sgettext. -/
structure GrampsLocale where
  collation : String
  sort_key : String → List Nat
  sgettext : String → String

/-- External Unicode string services used by first_letter: the function
unicodedata.normalize applied with form NFKC, and Python str.upper applied
to a one-character slice. -/
structure PyStr where
  nfkc : String → String
  upper : String → String

/-- Entity-kind tag _KEYPERSON (common.py line 252). -/
def _KEYPERSON : Nat := 0

/-- Entity-kind tag _KEYPLACE (common.py line 252). -/
def _KEYPLACE : Nat := 1

/-- Entity-kind tag _KEYEVENT (common.py line 252). -/
def _KEYEVENT : Nat := 2

/-- The database accessor: person_keyname models __get_person_keyname
(the sort string of the primary name of the person behind a handle) and
place_keyname models __get_place_keyname (utils.place_name). -/
structure DB where
  person_keyname : String → String
  place_keyname : String → String

/-- CONTRACTIONS_DICT (common.py lines 394-450): key is the language (or
language and country), value is the ordered list of contractions, each a
pair of the tuple of case variants and the index entry to use. -/
def CONTRACTIONS_DICT : List (String × List (List String × String)) :=
  [("ca", [(["l·", "L·"], "L")]),
   ("cs", [(["ch", "cH", "Ch", "CH"], "CH")]),
   ("da", [(["aa", "Aa", "AA"], "Å")]),
   ("hr", [(["dž", "Dž"], "dž"),
           (["lj", "Lj", "LJ"], "Ǉ"),
           (["Nj", "NJ", "nj"], "Ǌ")]),
   ("hu", [(["cs", "Cs", "CS"], "CS"),
           (["dzs", "Dzs", "DZS"], "DZS"),
           (["dz", "Dz", "DZ"], "DZ"),
           (["gy", "Gy", "GY"], "GY"),
           (["ly", "Ly", "LY"], "LY"),
           (["ny", "Ny", "NY"], "NY"),
           (["sz", "Sz", "SZ"], "SZ"),
           (["ty", "Ty", "TY"], "TY"),
           (["zs", "Zs", "ZS"], "ZS")]),
   ("nb", [(["aa", "Aa", "AA"], "Å")]),
   ("nn", [(["aa", "Aa", "AA"], "Å")]),
   ("sk", [(["ch", "cH", "Ch", "CH"], "Ch")])]

/-- Python dict get: CONTRACTIONS_DICT.get(lang). -/
def contrGet (lang : String) : Option (List (List String × String)) :=
  (CONTRACTIONS_DICT.find? (fun e => e.1 == lang)).map (fun e => e.2)

/-- Python string slice s[:n] by code points. -/
def strTake (s : String) (n : Nat) : String := (s.toList.take n).asString

/-- Python COLLATE_LANG.split("_")[0]: the part before the first
underscore. -/
def langBase (s : String) : String :=
  (s.toList.takeWhile (fun c => c != '_')).asString

/-- The contraction scan of first_letter (common.py lines 487-491): for
each contraction in table order, count = len(contraction[0][0]); when the
text is at least count long and its count-prefix is one of the variants,
the index entry of that contraction is returned at once. -/
def matchContraction : List (List String × String) → String → Option String
  | [], _ => none
  | (variants, canon) :: rest, norm_unicode =>
    let count := (variants.headD "").length
    if count ≤ norm_unicode.length ∧ strTake norm_unicode count ∈ variants then
      some canon
    else matchContraction rest norm_unicode

/-- first_letter (common.py lines 474-494).  The rlocale parameter is
present in the source signature but never read by the body: the
contraction table is selected by the module global COLLATE_LANG, passed
here explicitly as collateLang.  A missing or empty string yields a single
space; otherwise the string is NFKC-normalized, the contraction table of
collateLang (then of its base language) is scanned, and on no match the
first character is upper-cased. -/
def first_letter (py : PyStr) (collateLang : String) (rlocale : GrampsLocale)
    (string : Option String) : String :=
  match string with
  | none => " "
  | some s =>
    if s.length < 1 then " "
    else
      let norm_unicode := py.nfkc s
      let contractions :=
        match contrGet collateLang with
        | some cs => some cs
        | none => contrGet (langBase collateLang)
      match contractions with
      | some cs =>
        match matchContraction cs norm_unicode with
        | some canon => canon
        | none => py.upper (strTake norm_unicode 1)
      | none => py.upper (strTake norm_unicode 1)

/-- primary_difference, the fallback used when no collation service is
available (common.py lines 509-524): true iff
sort_key(prev_key + "e") >= sort_key(new_key + "f") or
sort_key(new_key + "e") >= sort_key(prev_key + "f"). -/
def primary_difference (prev_key new_key : String) (rlocale : GrampsLocale) : Bool :=
  keyGE (rlocale.sort_key (prev_key ++ "e")) (rlocale.sort_key (new_key ++ "f")) ||
  keyGE (rlocale.sort_key (new_key ++ "e")) (rlocale.sort_key (prev_key ++ "f"))

/-- Ascending comparison by the full collation key, the order used by
index_list.sort(key=rlocale.sort_key): a comes before b when the key of b
is not below the key of a. -/
def sortLe (rlocale : GrampsLocale) (a b : String) : Bool :=
  !keyLT (rlocale.sort_key b) (rlocale.sort_key a)

/-- Insertion of one element into a sorted list, placing it before the
first element it compares le to: the stable insertion step. -/
def pyInsert (le : String → String → Bool) (a : String) : List String → List String
  | [] => [a]
  | b :: l => if le a b then a :: b :: l else b :: pyInsert le a l

/-- Stable ascending sort, modelling Python list.sort(key=...): any stable
sort by a total preorder produces this unique output. -/
def pySort (le : String → String → Bool) : List String → List String
  | [] => []
  | a :: l => pyInsert le a (pySort le l)

/-- The dedup loop of get_first_letters (common.py lines 566-573): iterate
over a slice copy of the sorted list; keep the first element and every
element with a primary difference from the most recently kept one; every
other element is removed from the list by value, which in Python deletes
the first occurrence equal to it. -/
def dedupLoop (rlocale : GrampsLocale) :
    List String → Option String → List String → List String
  | index_list, _, [] => index_list
  | index_list, none, key :: rest => dedupLoop rlocale index_list (some key) rest
  | index_list, some prev, key :: rest =>
    if primary_difference prev key rlocale then
      dedupLoop rlocale index_list (some key) rest
    else
      dedupLoop rlocale (index_list.erase key) (some prev) rest

/-- The elements the dedup loop keeps, in scan order: a specification
helper for reasoning about dedupLoop. -/
def dedupKeep (rlocale : GrampsLocale) : Option String → List String → List String
  | _, [] => []
  | none, key :: rest => key :: dedupKeep rlocale (some key) rest
  | some prev, key :: rest =>
    if primary_difference prev key rlocale then
      key :: dedupKeep rlocale (some key) rest
    else dedupKeep rlocale (some prev) rest

/-- The elements the dedup loop removes, in scan order: the complement of
dedupKeep, a helper for reasoning about dedupLoop. -/
def dedupDrop (rlocale : GrampsLocale) : Option String → List String → List String
  | _, [] => []
  | none, key :: rest => dedupDrop rlocale (some key) rest
  | some prev, key :: rest =>
    if primary_difference prev key rlocale then
      dedupDrop rlocale (some key) rest
    else key :: dedupDrop rlocale (some prev) rest

/-- The display-key resolution of get_first_letters (common.py lines
548-559): person and place handles go through the database accessors;
otherwise the handle is an event-type label, translated only when rlocale
differs from glocale.  The comparison rlocale != glocale of the source is
the explicit flag rne. -/
def keyname_of (dbase : DB) (key : Nat) (rne : Bool) (rlocale : GrampsLocale)
    (handle : String) : String :=
  if key = _KEYPERSON then dbase.person_keyname handle
  else if key = _KEYPLACE then dbase.place_keyname handle
  else if rne then rlocale.sgettext handle
  else handle

/-- get_first_letters (common.py lines 526-576): extract the first letter
of every display key, sort the letters by the full collation key, then run
the dedup loop over a slice copy of the sorted list. -/
def get_first_letters (py : PyStr) (collateLang : String) (dbase : DB)
    (handle_list : List String) (key : Nat) (rne : Bool)
    (rlocale : GrampsLocale) : List String :=
  let index_list := handle_list.map fun handle =>
    first_letter py collateLang rlocale (some (keyname_of dbase key rne rlocale handle))
  let sorted := pySort (sortLe rlocale) index_list
  dedupLoop rlocale sorted none sorted

/-- get_index_letter (common.py lines 578-592): linear scan for the first
index with no primary difference from the letter; when none is found a
warning is logged and the letter itself is returned. -/
def get_index_letter (letter : String) (index_list : List String)
    (rlocale : GrampsLocale) : String :=
  match index_list.find? (fun index => !primary_difference letter index rlocale) with
  | some index => index
  | none => letter

/-- Python dict key order of the frequency count of alphabet_navigation
(common.py lines 601-604): the distinct elements in first-occurrence
order. -/
def pyDictKeys (l : List String) : List String :=
  l.foldl (fun acc x => if x ∈ acc then acc else acc ++ [x]) []

/-- The text substitution applied to one menu item (common.py lines
627-628): a space is rendered as a non-breaking-space entity. -/
def navItem (menu_item : String) : String :=
  if menu_item = " " then "&nbsp;" else menu_item

/-- alphabet_navigation (common.py lines 594-643), modelled as the list of
rows of rendered letter links.  The distinct letters are sorted by the
collation key; an empty index yields None.  num_of_rows is
num_ltrs // 26 + 1, and each row consumes letters while cols <= 26 and
letters remain, so a full row holds 27 items (cols runs 0..26); row r
therefore holds the letters from position 27*r on, at most 27 of them. -/
def alphabet_navigation (index_list : List String)
    (rlocale : GrampsLocale) : Option (List (List String)) :=
  let sorted_alpha_index := pySort (sortLe rlocale) (pyDictKeys index_list)
  if sorted_alpha_index = [] then none
  else
    let num_ltrs := sorted_alpha_index.length
    some ((List.range (num_ltrs / 26 + 1)).map fun row =>
      ((sorted_alpha_index.drop (27 * row)).take 27).map navItem)

/-- An object with a gallery: the media list behind obj.get_media_list(),
each media reference left opaque. -/
structure MediaObj where
  media_list : List String

/-- The rule state of HasGalleryBase: self.list, with list[0] already
parsed by int() and list[1] the comparison selector. -/
structure HasGalleryBase where
  list0 : Int
  list1 : String

/-- HasGalleryBase.prepare (_hasgallerybase.py lines 50-59): the pair of
count_type and userSelectedCount computed once per filter run. -/
def HasGalleryBase.prepare (r : HasGalleryBase) : Nat × Int :=
  let count_type :=
    if r.list1 = "less than" then 0
    else if r.list1 = "greater than" then 2
    else 1
  (count_type, r.list0)

/-- HasGalleryBase.apply (_hasgallerybase.py lines 61-68): compare the
media-list length of the object with userSelectedCount according to
count_type. -/
def HasGalleryBase.applyRule (st : Nat × Int) (obj : MediaObj) : Bool :=
  let count : Int := obj.media_list.length
  if st.1 = 0 then count < st.2
  else if st.1 = 2 then count > st.2
  else count = st.2

/-! Concrete instances used by witnesses and counterexamples. -/

/-- The identity Unicode services: NFKC is the identity on the composed
strings considered here, and upper maps ASCII letters to upper case. -/
def pyStd : PyStr :=
  { nfkc := fun s => s
    upper := fun s => (s.toList.map Char.toUpper).asString }

/-- A database accessor with empty display keys; the event-type branch of
keyname_of never consults it. -/
def dbEmpty : DB := { person_keyname := fun _ => "", place_keyname := fun _ => "" }

/-- A plain code-point collation: the sort key of a string is its list of
code points. -/
def locChar : GrampsLocale :=
  { collation := "en"
    sort_key := fun s => s.toList.map Char.toNat
    sgettext := fun s => s }

/-- A collation whose sort keys tie on the bare letters U, V, W while the
suffixed keys interleave so that V and W, and W and U, show a primary
difference but U and V do not. -/
def locAdv : GrampsLocale :=
  { collation := "en"
    sort_key := fun s =>
      if s = "Ve" then [5] else if s = "Vf" then [6]
      else if s = "We" then [6] else if s = "Wf" then [5]
      else if s = "Ue" then [5] else if s = "Uf" then [6]
      else [0]
    sgettext := fun s => s }

/-- A collation under which the letter V differs from itself at the
primary level: the sort key of Ve exceeds the sort key of Vf. -/
def locRefl : GrampsLocale :=
  { collation := "en"
    sort_key := fun s => if s = "Ve" then [1] else [0]
    sgettext := fun s => s }

/-- Twenty-eight distinct letters for the navigation-layout claims. -/
def lettersTwentyEight : List String :=
  ["A", "B", "C", "D", "E", "F", "G", "H", "I", "J", "K", "L", "M",
   "N", "O", "P", "Q", "R", "S", "T", "U", "V", "W", "X", "Y", "Z",
   "a", "b"]

/-- The first navigation row produced from lettersTwentyEight: twenty-six
capitals and one lower-case letter, twenty-seven links in all. -/
def navRowFirst : List String :=
  ["A", "B", "C", "D", "E", "F", "G", "H", "I", "J", "K", "L", "M",
   "N", "O", "P", "Q", "R", "S", "T", "U", "V", "W", "X", "Y", "Z",
   "a"]

/-- The second navigation row produced from lettersTwentyEight. -/
def navRowSecond : List String := ["b"]


/-! Order lemmas for the lexicographic sort-key comparison. -/

theorem keyLT_asymm : ∀ a b : List Nat, keyLT a b = true → keyLT b a = false := by
  intro a
  induction a with
  | nil =>
    intro b h
    cases b with
    | nil => simp [keyLT] at h
    | cons y ys => simp [keyLT]
  | cons x xs ih =>
    intro b h
    cases b with
    | nil => simp [keyLT] at h
    | cons y ys =>
      simp only [keyLT, Bool.or_eq_true, Bool.and_eq_true, decide_eq_true_eq] at h ⊢
      rw [Bool.or_eq_false_iff, Bool.and_eq_false_iff]
      rcases h with h | ⟨hxy, hlt⟩
      · constructor
        · simp; omega
        · left; simp; omega
      · constructor
        · simp; omega
        · right; exact ih ys hlt

theorem keyLT_trans :
    ∀ a b c : List Nat, keyLT a b = true → keyLT b c = true → keyLT a c = true := by
  intro a
  induction a with
  | nil =>
    intro b c hab hbc
    cases c with
    | nil =>
      cases b with
      | nil => simp [keyLT] at hab
      | cons y ys => simp [keyLT] at hbc
    | cons z zs => simp [keyLT]
  | cons x xs ih =>
    intro b c hab hbc
    cases b with
    | nil => simp [keyLT] at hab
    | cons y ys =>
      cases c with
      | nil => simp [keyLT] at hbc
      | cons z zs =>
        simp only [keyLT, Bool.or_eq_true, Bool.and_eq_true, decide_eq_true_eq] at hab hbc ⊢
        rcases hab with h1 | ⟨h1e, h1t⟩ <;> rcases hbc with h2 | ⟨h2e, h2t⟩
        · left; omega
        · left; omega
        · left; omega
        · right; exact ⟨by omega, ih ys zs h1t h2t⟩

theorem keyLT_connex :
    ∀ a b : List Nat, keyLT a b = false → keyLT b a = false → a = b := by
  intro a
  induction a with
  | nil =>
    intro b hab _
    cases b with
    | nil => rfl
    | cons y ys => simp [keyLT] at hab
  | cons x xs ih =>
    intro b hab hba
    cases b with
    | nil => simp [keyLT] at hba
    | cons y ys =>
      simp only [keyLT, Bool.or_eq_false_iff, Bool.and_eq_false_iff,
        decide_eq_false_iff_not] at hab hba
      rcases hab with ⟨h1, h2⟩
      rcases hba with ⟨h3, h4⟩
      have hxy : x = y := by omega
      subst hxy
      rcases h2 with h2 | h2
      · omega
      · rcases h4 with h4 | h4
        · omega
        · rw [ih ys h2 h4]

theorem sortLe_total (loc : GrampsLocale) (a b : String) :
    sortLe loc a b = true ∨ sortLe loc b a = true := by
  by_cases h : keyLT (loc.sort_key b) (loc.sort_key a) = true
  · right
    unfold sortLe
    rw [keyLT_asymm _ _ h]
    rfl
  · left
    unfold sortLe
    rw [Bool.not_eq_true] at h
    rw [h]
    rfl

theorem sortLe_trans (loc : GrampsLocale) (a b c : String) :
    sortLe loc a b = true → sortLe loc b c = true → sortLe loc a c = true := by
  unfold sortLe
  intro hab hbc
  rw [Bool.not_eq_true'] at hab hbc ⊢
  by_cases h : keyLT (loc.sort_key c) (loc.sort_key a) = true
  · exfalso
    by_cases h2 : keyLT (loc.sort_key a) (loc.sort_key b) = true
    · have h3 := keyLT_trans _ _ _ h h2
      rw [h3] at hbc
      exact Bool.noConfusion hbc
    · rw [Bool.not_eq_true] at h2
      have h3 := keyLT_connex _ _ hab h2
      rw [h3] at hbc
      rw [hbc] at h
      exact Bool.noConfusion h
  · rwa [Bool.not_eq_true] at h

/-! Lemmas about the stable sort. -/

theorem mem_pyInsert (le : String → String → Bool) (a x : String) :
    ∀ l : List String, x ∈ pyInsert le a l ↔ x = a ∨ x ∈ l := by
  intro l
  induction l with
  | nil => simp [pyInsert]
  | cons b t ih =>
    by_cases h : le a b = true
    · simp [pyInsert, h]
    · rw [Bool.not_eq_true] at h
      simp only [pyInsert, h]
      simp only [Bool.false_eq_true, if_false, List.mem_cons, ih]
      tauto

theorem perm_pyInsert (le : String → String → Bool) (a : String) :
    ∀ l : List String, (pyInsert le a l).Perm (a :: l) := by
  intro l
  induction l with
  | nil => simp [pyInsert]
  | cons b t ih =>
    by_cases h : le a b = true
    · simp [pyInsert, h]
    · rw [Bool.not_eq_true] at h
      simp only [pyInsert, h, Bool.false_eq_true, if_false]
      exact (ih.cons b).trans (List.Perm.swap a b t)

theorem perm_pySort (le : String → String → Bool) :
    ∀ l : List String, (pySort le l).Perm l := by
  intro l
  induction l with
  | nil => simp [pySort]
  | cons a t ih =>
    exact (perm_pyInsert le a (pySort le t)).trans (ih.cons a)

theorem pairwise_pyInsert (le : String → String → Bool)
    (htot : ∀ a b, le a b = true ∨ le b a = true)
    (htr : ∀ a b c, le a b = true → le b c = true → le a c = true)
    (a : String) :
    ∀ l : List String, l.Pairwise (fun x y => le x y = true) →
      (pyInsert le a l).Pairwise (fun x y => le x y = true) := by
  intro l
  induction l with
  | nil => simp [pyInsert]
  | cons b t ih =>
    intro hp
    rw [List.pairwise_cons] at hp
    obtain ⟨hb, ht⟩ := hp
    by_cases h : le a b = true
    · simp only [pyInsert, h, if_true]
      rw [List.pairwise_cons]
      refine ⟨?_, ?_⟩
      · intro y hy
        rcases List.mem_cons.mp hy with h3 | hy2
        · rw [h3]; exact h
        · exact htr a b y h (hb y hy2)
      · rw [List.pairwise_cons]
        exact ⟨hb, ht⟩
    · rw [Bool.not_eq_true] at h
      simp only [pyInsert, h, Bool.false_eq_true, if_false]
      rw [List.pairwise_cons]
      refine ⟨?_, ?_⟩
      · intro y hy
        rcases (mem_pyInsert le a y t).mp hy with h3 | hy2
        · rw [h3]
          rcases htot a b with h2 | h2
          · rw [h2] at h; exact Bool.noConfusion h
          · exact h2
        · exact hb y hy2
      · exact ih ht

theorem pairwise_pySort (le : String → String → Bool)
    (htot : ∀ a b, le a b = true ∨ le b a = true)
    (htr : ∀ a b c, le a b = true → le b c = true → le a c = true) :
    ∀ l : List String, (pySort le l).Pairwise (fun x y => le x y = true) := by
  intro l
  induction l with
  | nil => simp [pySort]
  | cons a t ih => exact pairwise_pyInsert le htot htr a _ ih

/-! Lemmas about the dedup loop of get_first_letters. -/

theorem pd_comm (a b : String) (loc : GrampsLocale) :
    primary_difference a b loc = primary_difference b a loc := by
  unfold primary_difference
  exact Bool.or_comm _ _

theorem dedupLoop_sublist (loc : GrampsLocale) :
    ∀ t l prev, (dedupLoop loc l prev t).Sublist l := by
  intro t
  induction t with
  | nil => intro l prev; cases prev <;> exact List.Sublist.refl l
  | cons x xs ih =>
    intro l prev
    cases prev with
    | none => exact ih l (some x)
    | some p =>
      by_cases h : primary_difference p x loc = true
      · simp only [dedupLoop, h, if_true]
        exact ih l (some x)
      · rw [Bool.not_eq_true] at h
        simp only [dedupLoop, h, Bool.false_eq_true, if_false]
        exact (ih (l.erase x) (some p)).trans (List.erase_sublist x l)

theorem dedupLoop_nodup_eq (loc : GrampsLocale) :
    ∀ t prev A, (A ++ t).Nodup →
      dedupLoop loc (A ++ t) prev t = A ++ dedupKeep loc prev t := by
  intro t
  induction t with
  | nil => intro prev A _; cases prev <;> simp [dedupLoop, dedupKeep]
  | cons x xs ih =>
    intro prev A hnd
    have hxA : x ∉ A := by
      rw [List.nodup_append] at hnd
      intro hx
      exact hnd.2.2 hx (List.mem_cons_self x xs)
    have hstep : (A ++ x :: xs) = (A ++ [x]) ++ xs := by simp
    cases prev with
    | none =>
      show dedupLoop loc (A ++ x :: xs) (some x) xs = A ++ (x :: dedupKeep loc (some x) xs)
      rw [hstep]
      rw [ih (some x) (A ++ [x]) (by rw [← hstep]; exact hnd)]
      simp
    | some p =>
      by_cases h : primary_difference p x loc = true
      · simp only [dedupLoop, dedupKeep, h, if_true]
        rw [hstep]
        rw [ih (some x) (A ++ [x]) (by rw [← hstep]; exact hnd)]
        simp
      · rw [Bool.not_eq_true] at h
        simp only [dedupLoop, dedupKeep, h, Bool.false_eq_true, if_false]
        rw [List.erase_append_right _ hxA, List.erase_cons_head]
        refine ih (some p) A ?_
        have h4 : (A ++ xs).Sublist (A ++ x :: xs) :=
          List.Sublist.append_left (List.sublist_cons_self x xs) A
        exact h4.nodup hnd

theorem dedupKeep_head (loc : GrampsLocale) :
    ∀ t p y, (dedupKeep loc (some p) t).head? = some y →
      primary_difference p y loc = true := by
  intro t
  induction t with
  | nil => intro p y h; simp [dedupKeep] at h
  | cons x xs ih =>
    intro p y h
    by_cases hpd : primary_difference p x loc = true
    · simp only [dedupKeep, hpd, if_true, List.head?_cons, Option.some.injEq] at h
      rw [← h]
      exact hpd
    · rw [Bool.not_eq_true] at hpd
      simp only [dedupKeep, hpd, Bool.false_eq_true, if_false] at h
      exact ih p y h

theorem dedupKeep_chain (loc : GrampsLocale) :
    ∀ t prev, (dedupKeep loc prev t).Chain'
      (fun a b => primary_difference a b loc = true) := by
  intro t
  induction t with
  | nil => intro prev; cases prev <;> simp [dedupKeep]
  | cons x xs ih =>
    intro prev
    cases prev with
    | none =>
      show List.Chain' _ (x :: dedupKeep loc (some x) xs)
      rw [List.chain'_cons']
      refine ⟨?_, ih (some x)⟩
      intro y hy
      exact dedupKeep_head loc xs x y hy
    | some p =>
      by_cases h : primary_difference p x loc = true
      · simp only [dedupKeep, h, if_true]
        rw [List.chain'_cons']
        refine ⟨?_, ih (some x)⟩
        intro y hy
        exact dedupKeep_head loc xs x y hy
      · rw [Bool.not_eq_true] at h
        simp only [dedupKeep, h, Bool.false_eq_true, if_false]
        exact ih (some p)

theorem dedup_count_partition (loc : GrampsLocale) :
    ∀ t prev v, (dedupKeep loc prev t).count v + (dedupDrop loc prev t).count v
      = t.count v := by
  intro t
  induction t with
  | nil => intro prev v; cases prev <;> simp [dedupKeep, dedupDrop]
  | cons x xs ih =>
    intro prev v
    cases prev with
    | none =>
      show ((x :: dedupKeep loc (some x) xs).count v) + _ = _
      simp only [dedupKeep, dedupDrop, List.count_cons]
      have h2 := ih (some x) v
      omega
    | some p =>
      by_cases h : primary_difference p x loc = true
      · simp only [dedupKeep, dedupDrop, h, if_true, List.count_cons]
        have h2 := ih (some x) v
        omega
      · rw [Bool.not_eq_true] at h
        simp only [dedupKeep, dedupDrop, h, Bool.false_eq_true, if_false, List.count_cons]
        have h2 := ih (some p) v
        omega

theorem dedupLoop_count (loc : GrampsLocale) :
    ∀ t prev l, (∀ v, t.count v ≤ l.count v) →
      ∀ v, (dedupLoop loc l prev t).count v
        = l.count v - (dedupDrop loc prev t).count v := by
  intro t
  induction t with
  | nil => intro prev l _ v; cases prev <;> simp [dedupLoop, dedupDrop]
  | cons x xs ih =>
    intro prev l hle v
    have hxs : ∀ w, xs.count w ≤ l.count w := by
      intro w
      have h2 := hle w
      have h3 : xs.count w ≤ (x :: xs).count w := by
        rw [List.count_cons]; omega
      omega
    cases prev with
    | none =>
      show (dedupLoop loc l (some x) xs).count v
        = l.count v - (dedupDrop loc (some x) xs).count v
      exact ih (some x) l hxs v
    | some p =>
      by_cases h : primary_difference p x loc = true
      · simp only [dedupLoop, dedupDrop, h, if_true]
        exact ih (some x) l hxs v
      · rw [Bool.not_eq_true] at h
        simp only [dedupLoop, dedupDrop, h, Bool.false_eq_true, if_false]
        have hxl : x ∈ l := by
          have h2 := hle x
          simp only [List.count_cons, beq_self_eq_true, if_true] at h2
          have hpos : 0 < l.count x := by omega
          exact List.count_pos_iff.mp hpos
        have herase : ∀ w, xs.count w ≤ (l.erase x).count w := by
          intro w
          by_cases hw : w = x
          · rw [hw, List.count_erase_self]
            have h2 := hle x
            simp only [List.count_cons, beq_self_eq_true, if_true] at h2
            omega
          · rw [List.count_erase_of_ne hw]
            exact hxs w
        rw [ih (some p) (l.erase x) herase v]
        by_cases hv : v = x
        · rw [hv, List.count_erase_self, List.count_cons]
          simp only [beq_self_eq_true, if_true]
          omega
        · rw [List.count_erase_of_ne hv, List.count_cons]
          have h3 : (x == v) = false := by
            simp only [beq_eq_false_iff_ne, ne_eq]
            intro hx; exact hv hx.symm
          rw [h3]
          simp

theorem mem_dedupLoop_of_mem_keep (loc : GrampsLocale) (s : List String) (b : String)
    (hb : b ∈ dedupKeep loc none s) : b ∈ dedupLoop loc s none s := by
  have hcount := dedupLoop_count loc s none s (fun v => Nat.le_refl _) b
  have hpart := dedup_count_partition loc s none b
  have hkeep : 0 < (dedupKeep loc none s).count b := List.count_pos_iff.mpr hb
  have hfin : 0 < (dedupLoop loc s none s).count b := by omega
  exact List.count_pos_iff.mp hfin

theorem dedupKeep_neighbor (loc : GrampsLocale) :
    ∀ t prev letter, letter ∈ t → primary_difference letter letter loc = false →
      (∃ b ∈ dedupKeep loc prev t, primary_difference letter b loc = false) ∨
      (∃ p, prev = some p ∧ primary_difference letter p loc = false) := by
  intro t
  induction t with
  | nil => intro prev letter h; exact absurd h (List.not_mem_nil letter)
  | cons x xs ih =>
    intro prev letter hmem hrefl
    cases prev with
    | none =>
      show (∃ b ∈ x :: dedupKeep loc (some x) xs, _) ∨ _
      rcases List.mem_cons.mp hmem with h3 | hxs
      · left
        exact ⟨letter, by rw [h3]; exact List.mem_cons_self _ _, hrefl⟩
      · rcases ih (some x) letter hxs hrefl with ⟨b, hbmem, hbpd⟩ | ⟨p, hp, hppd⟩
        · left
          exact ⟨b, List.mem_cons_of_mem x hbmem, hbpd⟩
        · left
          refine ⟨x, List.mem_cons_self _ _, ?_⟩
          rw [Option.some_inj.mp hp]
          exact hppd
    | some p =>
      by_cases h : primary_difference p x loc = true
      · simp only [dedupKeep, h, if_true]
        rcases List.mem_cons.mp hmem with h3 | hxs
        · left
          exact ⟨letter, by rw [h3]; exact List.mem_cons_self _ _, hrefl⟩
        · rcases ih (some x) letter hxs hrefl with ⟨b, hbmem, hbpd⟩ | ⟨q, hq, hqpd⟩
          · left
            exact ⟨b, List.mem_cons_of_mem x hbmem, hbpd⟩
          · left
            refine ⟨x, List.mem_cons_self _ _, ?_⟩
            rw [Option.some_inj.mp hq]
            exact hqpd
      · rw [Bool.not_eq_true] at h
        simp only [dedupKeep, h, Bool.false_eq_true, if_false]
        rcases List.mem_cons.mp hmem with h3 | hxs
        · right
          refine ⟨p, rfl, ?_⟩
          rw [h3, pd_comm]
          exact h
        · exact ih (some p) letter hxs hrefl

/-- Claim C5: the fallback primary_difference declares no primary
difference (returns false) exactly when both sort_key(A + "e") <
sort_key(B + "f") and sort_key(B + "e") < sort_key(A + "f") hold under the
full collation sort key of the locale. -/
theorem primary_difference_false_iff (A B : String) (loc : GrampsLocale) :
    primary_difference A B loc = false ↔
      (keyLT (loc.sort_key (A ++ "e")) (loc.sort_key (B ++ "f")) = true ∧
       keyLT (loc.sort_key (B ++ "e")) (loc.sort_key (A ++ "f")) = true) := by
  simp [primary_difference, keyGE]

/-- Claim C6: the fallback primary_difference comparator is symmetric. -/
theorem primary_difference_symm (A B : String) (loc : GrampsLocale) :
    primary_difference A B loc = primary_difference B A loc :=
  pd_comm A B loc

/-- Claim C8: get_first_letters of an empty handle list is empty for every
database, entity-kind key and locale, and alphabet_navigation of an empty
bucket list is None. -/
theorem empty_input_behavior (py : PyStr) (cl : String) (db : DB) (key : Nat)
    (rne : Bool) (loc loc2 : GrampsLocale) :
    get_first_letters py cl db [] key rne loc = [] ∧
    alphabet_navigation [] loc2 = none :=
  ⟨rfl, rfl⟩

/-- Claim C9 counterexample: with the process-wide collation language set
to Hungarian, first_letter applied with an English per-call locale still
uses the Hungarian contraction table and returns DZS, while a call whose
table really came from the per-call locale (collation tag "en") returns D:
the per-call locale does not select the contraction data. -/
theorem first_letter_locale_cex :
    first_letter pyStd "hu" locChar (some "dzsudó") = "DZS" ∧
    first_letter pyStd locChar.collation locChar (some "dzsudó") = "D" :=
  ⟨rfl, rfl⟩

/-- Claim C9 (corrected): first_letter never reads its per-call locale
argument; for a fixed process-wide collation language the result is the
same for every per-call locale. -/
theorem first_letter_ignores_rlocale (py : PyStr) (cl : String)
    (loc1 loc2 : GrampsLocale) (s : Option String) :
    first_letter py cl loc1 s = first_letter py cl loc2 s :=
  rfl

/-- Claim C3: with the collation language Hungarian and NFKC fixing the
composed string, first_letter of dzsudó returns DZS: the three-letter
contraction wins over dz and d because table order tries dzs first. -/
theorem first_letter_hungarian_dzs (py : PyStr) (loc : GrampsLocale)
    (h : py.nfkc "dzsudó" = "dzsudó") :
    first_letter py "hu" loc (some "dzsudó") = "DZS" := by
  simp only [first_letter]
  rw [h]
  rfl

/-- Claim C3 witness: the identity NFKC satisfies the hypothesis and the
theorem evaluates at it. -/
theorem first_letter_hungarian_dzs_witness :
    pyStd.nfkc "dzsudó" = "dzsudó" ∧
    first_letter pyStd "hu" locChar (some "dzsudó") = "DZS" :=
  ⟨rfl, first_letter_hungarian_dzs pyStd locChar rfl⟩

/-- Claim C10: the prepared HasGalleryBase rule matches an object exactly
when the media-list length compares with the selected count as dictated by
the comparison string, every unrecognized string meaning equality; the
rule is a pure function of the object. -/
theorem hasGalleryBase_spec (r : HasGalleryBase) (obj : MediaObj) :
    HasGalleryBase.applyRule r.prepare obj =
      (if r.list1 = "less than" then
        decide ((obj.media_list.length : Int) < r.list0)
       else if r.list1 = "greater than" then
        decide ((obj.media_list.length : Int) > r.list0)
       else decide ((obj.media_list.length : Int) = r.list0)) := by
  unfold HasGalleryBase.prepare HasGalleryBase.applyRule
  by_cases h1 : r.list1 = "less than"
  · simp [h1]
  · by_cases h2 : r.list1 = "greater than"
    · simp [h1, h2]
    · simp [h1, h2]

theorem find?_eq_of_first (p : String → Bool) :
    ∀ (l : List String) (i : Nat) (hi : i < l.length),
      p (l.get ⟨i, hi⟩) = true →
      (∀ j : Nat, ∀ hj : j < i, p (l.get ⟨j, Nat.lt_trans hj hi⟩) = false) →
      l.find? p = some (l.get ⟨i, hi⟩) := by
  intro l
  induction l with
  | nil => intro i hi; exact absurd hi (Nat.not_lt_zero i)
  | cons x xs ih =>
    intro i hi hp hprev
    cases i with
    | zero => exact List.find?_cons_of_pos _ hp
    | succ n =>
      have hx : p x = false := hprev 0 (Nat.succ_pos n)
      rw [List.find?_cons_of_neg]
      · have hn : n < xs.length := Nat.lt_of_succ_lt_succ hi
        exact ih n hn hp (fun j hj => hprev (j + 1) (Nat.succ_lt_succ hj))
      · rw [hx]; exact Bool.noConfusion

/-- Claim C1 (corrected): the bucket list of get_first_letters is always
sorted ascending by the full collation key; and when the extracted letters
are pairwise distinct, every pair of adjacent buckets shows a primary
difference. -/
theorem get_first_letters_sorted_distinct (py : PyStr) (cl : String) (db : DB)
    (hl : List String) (key : Nat) (rne : Bool) (loc : GrampsLocale) :
    (get_first_letters py cl db hl key rne loc).Pairwise
      (fun a b => sortLe loc a b = true) ∧
    ((hl.map fun h => first_letter py cl loc
        (some (keyname_of db key rne loc h))).Nodup →
      (get_first_letters py cl db hl key rne loc).Chain'
        (fun a b => primary_difference a b loc = true)) := by
  have hsorted := pairwise_pySort (sortLe loc) (sortLe_total loc) (sortLe_trans loc)
    (hl.map fun h => first_letter py cl loc (some (keyname_of db key rne loc h)))
  constructor
  · exact List.Pairwise.sublist (dedupLoop_sublist loc _ _ none) hsorted
  · intro hnd
    have hnds : (pySort (sortLe loc) (hl.map fun h => first_letter py cl loc
        (some (keyname_of db key rne loc h)))).Nodup :=
      (perm_pySort (sortLe loc) _).symm.nodup hnd
    have heq := dedupLoop_nodup_eq loc (pySort (sortLe loc)
      (hl.map fun h => first_letter py cl loc (some (keyname_of db key rne loc h))))
      none [] (by simpa using hnds)
    simp only [List.nil_append] at heq
    show (dedupLoop loc (pySort (sortLe loc) (hl.map fun h => first_letter py cl loc
      (some (keyname_of db key rne loc h)))) none (pySort (sortLe loc)
      (hl.map fun h => first_letter py cl loc
        (some (keyname_of db key rne loc h))))).Chain'
      (fun a b => primary_difference a b loc = true)
    rw [heq]
    exact dedupKeep_chain loc _ none

/-- Claim C1 counterexample: under the locale locAdv the sorted letters
V W U V tie on bare sort keys, the dedup loop keeps V W U and then removes
the first occurrence of the repeated V, leaving W U V whose adjacent pair
U V has no primary difference. -/
theorem get_first_letters_adjacent_cex :
    get_first_letters pyStd "en" dbEmpty ["v", "w", "u", "v"] _KEYEVENT false locAdv
      = ["W", "U", "V"] ∧
    primary_difference "U" "V" locAdv = false :=
  ⟨rfl, rfl⟩

/-- Claim C1 witness: a concrete run with distinct letters where the
bucket list is sorted and adjacent buckets differ at the primary level. -/
theorem get_first_letters_sorted_distinct_witness :
    (get_first_letters pyStd "en" dbEmpty ["b", "a"] _KEYEVENT false locChar).Pairwise
      (fun a b => sortLe locChar a b = true) ∧
    (get_first_letters pyStd "en" dbEmpty ["b", "a"] _KEYEVENT false locChar).Chain'
      (fun a b => primary_difference a b locChar = true) :=
  ⟨(get_first_letters_sorted_distinct pyStd "en" dbEmpty ["b", "a"]
      _KEYEVENT false locChar).1,
   (get_first_letters_sorted_distinct pyStd "en" dbEmpty ["b", "a"]
      _KEYEVENT false locChar).2 (by decide)⟩

/-- Claim C2 (corrected): when no extracted letter differs from itself at
the primary level, the letter of every item finds a bucket in the
get_first_letters output with no primary difference from it: the scan of
get_index_letter succeeds, returns a member of the bucket list, and the
not-found fallback is not taken. -/
theorem get_index_letter_coverage (py : PyStr) (cl : String) (db : DB)
    (hl : List String) (key : Nat) (rne : Bool) (loc : GrampsLocale)
    (hrefl : ∀ letter ∈ (hl.map fun h => first_letter py cl loc
        (some (keyname_of db key rne loc h))),
      primary_difference letter letter loc = false)
    (letter : String)
    (hmem : letter ∈ (hl.map fun h => first_letter py cl loc
        (some (keyname_of db key rne loc h)))) :
    ((get_first_letters py cl db hl key rne loc).find?
        (fun index => !primary_difference letter index loc)).isSome = true ∧
    get_index_letter letter (get_first_letters py cl db hl key rne loc) loc
      ∈ get_first_letters py cl db hl key rne loc ∧
    primary_difference letter
      (get_index_letter letter (get_first_letters py cl db hl key rne loc) loc) loc
      = false := by
  have hsmem : letter ∈ pySort (sortLe loc) (hl.map fun h => first_letter py cl loc
      (some (keyname_of db key rne loc h))) :=
    ((perm_pySort (sortLe loc) _).mem_iff).mpr hmem
  rcases dedupKeep_neighbor loc (pySort (sortLe loc) (hl.map fun h =>
      first_letter py cl loc (some (keyname_of db key rne loc h)))) none letter hsmem
      (hrefl letter hmem) with ⟨b, hbK, hbpd⟩ | ⟨p, hp, _⟩
  · have hbfin := mem_dedupLoop_of_mem_keep loc (pySort (sortLe loc)
      (hl.map fun h => first_letter py cl loc (some (keyname_of db key rne loc h)))) b hbK
    have hfind : ((get_first_letters py cl db hl key rne loc).find?
        (fun index => !primary_difference letter index loc)).isSome = true := by
      apply List.find?_isSome.mpr
      refine ⟨b, hbfin, ?_⟩
      rw [hbpd]
      rfl
    obtain ⟨idx, hidx⟩ := Option.isSome_iff_exists.mp hfind
    have hgil : get_index_letter letter
        (get_first_letters py cl db hl key rne loc) loc = idx := by
      unfold get_index_letter
      rw [hidx]
    refine ⟨hfind, ?_, ?_⟩
    · rw [hgil]
      exact List.mem_of_find?_eq_some hidx
    · rw [hgil]
      have h2 := List.find?_some hidx
      by_cases hpd : primary_difference letter idx loc = true
      · rw [hpd] at h2
        exact Bool.noConfusion h2
      · rwa [Bool.not_eq_true] at hpd
  · exact Option.noConfusion hp

/-- Claim C2 counterexample: under locRefl the single item v yields the
letter V and the bucket list V, yet the scan of get_index_letter finds no
bucket without a primary difference from V, because V differs from itself
at the primary level under this locale; the fallback branch is taken. -/
theorem get_index_letter_fallback_cex :
    get_first_letters pyStd "en" dbEmpty ["v"] _KEYEVENT false locRefl = ["V"] ∧
    (["V"].find? (fun index => !primary_difference "V" index locRefl)) = none :=
  ⟨rfl, rfl⟩

/-- Claim C2 witness: a concrete run where every extracted letter maps to
a member of the bucket list with the scan succeeding. -/
theorem get_index_letter_coverage_witness :
    ((get_first_letters pyStd "en" dbEmpty ["b", "a"] _KEYEVENT false locChar).find?
        (fun index => !primary_difference "B" index locChar)).isSome = true ∧
    get_index_letter "B"
        (get_first_letters pyStd "en" dbEmpty ["b", "a"] _KEYEVENT false locChar) locChar
      ∈ get_first_letters pyStd "en" dbEmpty ["b", "a"] _KEYEVENT false locChar ∧
    primary_difference "B"
      (get_index_letter "B"
        (get_first_letters pyStd "en" dbEmpty ["b", "a"] _KEYEVENT false locChar) locChar)
      locChar = false :=
  get_index_letter_coverage pyStd "en" dbEmpty ["b", "a"] _KEYEVENT false locChar
    (by decide) "B" (by decide)

/-- Claim C7: get_index_letter returns the first index with no primary
difference from the letter, and when every index shows a primary
difference it returns the letter unchanged; being a total function it
never fails. -/
theorem get_index_letter_spec (letter : String) (il : List String) (loc : GrampsLocale) :
    ((∀ b ∈ il, primary_difference letter b loc = true) →
      get_index_letter letter il loc = letter) ∧
    (∀ i : Nat, ∀ hi : i < il.length,
      primary_difference letter (il.get ⟨i, hi⟩) loc = false →
      (∀ j : Nat, ∀ hj : j < i,
        primary_difference letter (il.get ⟨j, Nat.lt_trans hj hi⟩) loc = true) →
      get_index_letter letter il loc = il.get ⟨i, hi⟩) := by
  constructor
  · intro hall
    unfold get_index_letter
    have hnone : il.find? (fun index => !primary_difference letter index loc) = none := by
      apply List.find?_eq_none.mpr
      intro x hx
      rw [hall x hx]
      simp
    rw [hnone]
  · intro i hi hpd hprev
    unfold get_index_letter
    have hfind := find?_eq_of_first (fun index => !primary_difference letter index loc)
      il i hi
      (by show (!primary_difference letter (il.get ⟨i, hi⟩) loc) = true
          rw [hpd]
          rfl)
      (by intro j hj
          show (!primary_difference letter (il.get ⟨j, Nat.lt_trans hj hi⟩) loc) = false
          rw [hprev j hj]
          rfl)
    rw [hfind]

/-- Claim C7 witness: the not-found case returns the letter unchanged and
the found case returns the first matching bucket. -/
theorem get_index_letter_spec_witness :
    get_index_letter "B" ["A"] locChar = "B" ∧
    get_index_letter "A" ["B", "A"] locChar = "A" := by
  have hlen : 1 < (["B", "A"] : List String).length := by decide
  refine ⟨(get_index_letter_spec "B" ["A"] locChar).1 (by decide), ?_⟩
  have h := (get_index_letter_spec "A" ["B", "A"] locChar).2 1 hlen rfl
    (by intro j hj
        have hj0 : j = 0 := by omega
        subst hj0
        rfl)
  exact h

/-- Claim C4 (corrected): every navigation row immediately followed by a
nonempty row holds exactly twenty-seven letter links, because the column
loop runs while cols <= 26; trailing rows may be shorter or empty. -/
theorem alphabet_navigation_rows (il : List String) (loc : GrampsLocale)
    (rows : List (List String)) (hrows : alphabet_navigation il loc = some rows)
    (i : Nat) (r r2 : List String)
    (hi : rows.get? i = some r) (hj : rows.get? (i + 1) = some r2) (hne : r2 ≠ []) :
    r.length = 27 := by
  simp only [alphabet_navigation] at hrows
  split at hrows
  · exact Option.noConfusion hrows
  · rw [Option.some_inj] at hrows
    subst hrows
    rw [List.get?_map] at hi hj
    rcases Option.map_eq_some'.mp hi with ⟨a, ha, hfa⟩
    rcases Option.map_eq_some'.mp hj with ⟨b, hb, hfb⟩
    obtain ⟨hlen, hget⟩ := List.get?_eq_some.mp ha
    obtain ⟨hlen2, hget2⟩ := List.get?_eq_some.mp hb
    rw [List.get_range] at hget hget2
    subst hget
    subst hget2
    have h1 : r.length = min 27 ((pySort (sortLe loc) (pyDictKeys il)).length - 27 * i) := by
      rw [← hfa]
      simp [List.length_map, List.length_take, List.length_drop]
    have h2 : r2.length = min 27 ((pySort (sortLe loc) (pyDictKeys il)).length
        - 27 * (i + 1)) := by
      rw [← hfb]
      simp [List.length_map, List.length_take, List.length_drop]
    have h3 : 0 < r2.length := List.length_pos.mpr hne
    omega

/-- Claim C4 counterexample: twenty-eight distinct letters produce two
rows of twenty-seven and one links; the first row is not the last and has
twenty-seven links, not twenty-six. -/
theorem alphabet_navigation_26_cex :
    ((alphabet_navigation lettersTwentyEight locChar).getD []).map List.length
      = [27, 1] := by
  decide

/-- Claim C4 witness: the amended row-size law evaluated on the
twenty-eight letter input. -/
theorem alphabet_navigation_rows_witness : navRowFirst.length = 27 :=
  alphabet_navigation_rows lettersTwentyEight locChar [navRowFirst, navRowSecond]
    (by decide) 0 navRowFirst navRowSecond rfl rfl (by decide)
